import Mathlib

/-!
Shallow embedding of the `lolli` linear-logic workbench
(crates lolli-core, lolli-prove, lolli-parse, lolli-extract),
with theorems settling the frozen claims about it.

Each definition mirrors one Rust item; the file paths are given in the
doc comments.  The proof-search engine is stateful in Rust (`&mut self`:
failure cache and statistics); here the `Prover` value is threaded
explicitly.  The search recursion is indexed by explicit `gas`, consumed
on entry of every function of the mutual block; `none` means the gas ran
out, `some (result, prover')` is the genuine outcome of the Rust code,
which terminates on every input (depth budget plus the top-level-Lolli
rewrite measure), so for every input some gas is enough.
-/

namespace Lolli

/-- `Formula` from lolli-core/src/formula.rs. -/
inductive Formula where
  | Atom (name : String)
  | NegAtom (name : String)
  | Tensor (a b : Formula)
  | Par (a b : Formula)
  | One
  | Bottom
  | With (a b : Formula)
  | Plus (a b : Formula)
  | Top
  | Zero
  | OfCourse (a : Formula)
  | WhyNot (a : Formula)
  | Lolli (a b : Formula)
deriving DecidableEq

/-- `Formula::negate` from lolli-core/src/formula.rs. -/
def Formula.negate : Formula → Formula
  | .Atom a => .NegAtom a
  | .NegAtom a => .Atom a
  | .Tensor a b => .Par a.negate b.negate
  | .Par a b => .Tensor a.negate b.negate
  | .One => .Bottom
  | .Bottom => .One
  | .With a b => .Plus a.negate b.negate
  | .Plus a b => .With a.negate b.negate
  | .Top => .Zero
  | .Zero => .Top
  | .OfCourse a => .WhyNot a.negate
  | .WhyNot a => .OfCourse a.negate
  | .Lolli a b => .Tensor a b.negate

/-- Node count of a formula (termination measure for `desugar`). -/
def Formula.size : Formula → Nat
  | .Atom _ => 1
  | .NegAtom _ => 1
  | .One => 1
  | .Bottom => 1
  | .Top => 1
  | .Zero => 1
  | .Tensor a b => a.size + b.size + 1
  | .Par a b => a.size + b.size + 1
  | .With a b => a.size + b.size + 1
  | .Plus a b => a.size + b.size + 1
  | .Lolli a b => a.size + b.size + 1
  | .OfCourse a => a.size + 1
  | .WhyNot a => a.size + 1

/-- `Formula::desugar` from lolli-core/src/formula.rs: expands
`A ⊸ B` to `A⊥ ⅋ B`, recursing into children.  Termination: `negate`
preserves the node count, so the recursion on `a.negate` in the `Lolli`
arm still descends in `size`. -/
def Formula.desugar : Formula → Formula
  | .Lolli a b => .Par a.negate.desugar b.desugar
  | .Tensor a b => .Tensor a.desugar b.desugar
  | .Par a b => .Par a.desugar b.desugar
  | .With a b => .With a.desugar b.desugar
  | .Plus a b => .Plus a.desugar b.desugar
  | .OfCourse a => .OfCourse a.desugar
  | .WhyNot a => .WhyNot a.desugar
  | f => f
termination_by f => f.size
decreasing_by
  all_goals
    have hns : ∀ g : Formula, g.negate.size = g.size := by
      intro g; induction g <;> simp [Formula.negate, Formula.size, *]
    simp [Formula.size, hns] <;> omega

/-- `Formula::is_positive` from lolli-core/src/formula.rs. -/
def Formula.is_positive : Formula → Bool
  | .Atom _ => true
  | .Tensor _ _ => true
  | .One => true
  | .Plus _ _ => true
  | .Zero => true
  | .OfCourse _ => true
  | _ => false

/-- `Formula::is_negative` from lolli-core/src/formula.rs. -/
def Formula.is_negative (f : Formula) : Bool := !f.is_positive

/-- `Formula::pretty` from lolli-core/src/formula.rs (Unicode symbols). -/
def Formula.pretty : Formula → String
  | .Atom a => a
  | .NegAtom a => a ++ "⊥"
  | .Tensor a b => "(" ++ a.pretty ++ " ⊗ " ++ b.pretty ++ ")"
  | .Par a b => "(" ++ a.pretty ++ " ⅋ " ++ b.pretty ++ ")"
  | .Lolli a b => "(" ++ a.pretty ++ " ⊸ " ++ b.pretty ++ ")"
  | .With a b => "(" ++ a.pretty ++ " & " ++ b.pretty ++ ")"
  | .Plus a b => "(" ++ a.pretty ++ " ⊕ " ++ b.pretty ++ ")"
  | .OfCourse a => "!" ++ a.pretty
  | .WhyNot a => "?" ++ a.pretty
  | .One => "1"
  | .Bottom => "⊥"
  | .Top => "⊤"
  | .Zero => "0"

/-- True exactly on the `Lolli` constructor. -/
def Formula.isLolli : Formula → Bool
  | .Lolli _ _ => true
  | _ => false

/-- `F` holds no `Lolli` constructor anywhere. -/
def Formula.noLolli : Formula → Bool
  | .Lolli _ _ => false
  | .Tensor a b => a.noLolli && b.noLolli
  | .Par a b => a.noLolli && b.noLolli
  | .With a b => a.noLolli && b.noLolli
  | .Plus a b => a.noLolli && b.noLolli
  | .OfCourse a => a.noLolli
  | .WhyNot a => a.noLolli
  | _ => true

/-- `Sequent` from lolli-core/src/sequent.rs: one-sided, with a linear
zone, an unrestricted zone and an optional focus. -/
structure Sequent where
  linear : List Formula
  unrestricted : List Formula
  focus : Option Formula
deriving DecidableEq

/-- `Sequent::new` from lolli-core/src/sequent.rs. -/
def Sequent.new (formulas : List Formula) : Sequent :=
  { linear := formulas, unrestricted := [], focus := none }

/-- `TwoSidedSequent` from lolli-core/src/sequent.rs. -/
structure TwoSidedSequent where
  antecedent : List Formula
  succedent : List Formula
deriving DecidableEq

/-- `TwoSidedSequent::to_one_sided` from lolli-core/src/sequent.rs:
`Γ ⊢ Δ` becomes `⊢ Γ⊥, Δ`. -/
def TwoSidedSequent.to_one_sided (s : TwoSidedSequent) : Sequent :=
  Sequent.new (s.antecedent.map Formula.negate ++ s.succedent)

/-- `Rule` from lolli-core/src/proof.rs. -/
inductive Rule where
  | Axiom
  | Cut (f : Formula)
  | OneIntro
  | BottomIntro
  | TensorIntro
  | ParIntro
  | TopIntro
  | WithIntro
  | PlusIntroLeft
  | PlusIntroRight
  | OfCourseIntro
  | WhyNotIntro
  | Weakening
  | Contraction
  | Dereliction
  | FocusPositive (idx : Nat)
  | FocusNegative (idx : Nat)
  | Blur
deriving DecidableEq

/-- `Proof` from lolli-core/src/proof.rs: conclusion, rule, premises. -/
inductive Proof where
  | mk (conclusion : Sequent) (rule : Rule) (premises : List Proof)

/-- Field `Proof.conclusion`. -/
def Proof.conclusion : Proof → Sequent
  | .mk c _ _ => c

/-- Field `Proof.rule`. -/
def Proof.rule : Proof → Rule
  | .mk _ r _ => r

/-- Field `Proof.premises`. -/
def Proof.premises : Proof → List Proof
  | .mk _ _ ps => ps

/-- Whether a rule tag is `Cut`. -/
def Rule.isCut : Rule → Bool
  | .Cut _ => true
  | _ => false

mutual
/-- `Proof::cut_count` from lolli-core/src/proof.rs: the number of `Cut`
rules in the tree. -/
def Proof.cut_count : Proof → Nat
  | .mk _ r ps => (if r.isCut then 1 else 0) + Proof.cut_count_list ps

/-- Sum of `cut_count` over a premise list. -/
def Proof.cut_count_list : List Proof → Nat
  | [] => 0
  | p :: ps => p.cut_count + Proof.cut_count_list ps
end

mutual
/-- How many nodes of the proof tree carry rule `r`. -/
def Proof.countRule (r : Rule) : Proof → Nat
  | .mk _ r' ps => (if r' = r then 1 else 0) + Proof.countRule_list r ps

/-- Sum of `countRule` over a premise list. -/
def Proof.countRule_list (r : Rule) : List Proof → Nat
  | [] => 0
  | p :: ps => Proof.countRule r p + Proof.countRule_list r ps
end

/-- `Term` from lolli-core/src/term.rs: linear λ-terms. -/
inductive Term where
  | Var (v : String)
  | Unit
  | Pair (a b : Term)
  | LetPair (x y : String) (pair body : Term)
  | Abs (x : String) (body : Term)
  | App (f a : Term)
  | Inl (e : Term)
  | Inr (e : Term)
  | Case (scrut : Term) (x : String) (left : Term) (y : String) (right : Term)
  | Trivial
  | Fst (e : Term)
  | Snd (e : Term)
  | Abort (e : Term)
  | Promote (e : Term)
  | Derelict (e : Term)
  | Discard (discarded body : Term)
  | Copy (src : Term) (x y : String) (body : Term)
deriving DecidableEq

/-- `Term::free_vars` from lolli-core/src/term.rs (a `HashSet<String>`
in Rust, a `Finset String` here). -/
def Term.free_vars : Term → Finset String
  | .Var v => {v}
  | .Unit => ∅
  | .Trivial => ∅
  | .Pair a b => a.free_vars ∪ b.free_vars
  | .App a b => a.free_vars ∪ b.free_vars
  | .LetPair x y pair body => pair.free_vars ∪ ((body.free_vars.erase x).erase y)
  | .Abs x body => body.free_vars.erase x
  | .Inl e => e.free_vars
  | .Inr e => e.free_vars
  | .Fst e => e.free_vars
  | .Snd e => e.free_vars
  | .Abort e => e.free_vars
  | .Case scrut x left y right =>
      scrut.free_vars ∪ (left.free_vars.erase x) ∪ (right.free_vars.erase y)
  | .Promote e => e.free_vars
  | .Derelict e => e.free_vars
  | .Discard discarded body => discarded.free_vars ∪ body.free_vars
  | .Copy src x y body => src.free_vars ∪ ((body.free_vars.erase x).erase y)

/-- `Term::substitute` from lolli-core/src/term.rs: replace free
occurrences of `var` by `replacement`, skipping shadowing binders (the
Rust code has no freshness check: a free variable of `replacement` can
be captured by a binder of the term). -/
def Term.substitute (t : Term) (var : String) (replacement : Term) : Term :=
  match t with
  | .Var v => if v = var then replacement else .Var v
  | .Unit => .Unit
  | .Trivial => .Trivial
  | .Pair a b => .Pair (a.substitute var replacement) (b.substitute var replacement)
  | .LetPair x y pair body =>
      let new_pair := pair.substitute var replacement
      let new_body := if x = var || y = var then body else body.substitute var replacement
      .LetPair x y new_pair new_body
  | .Abs x body =>
      if x = var then .Abs x body else .Abs x (body.substitute var replacement)
  | .App f a => .App (f.substitute var replacement) (a.substitute var replacement)
  | .Inl e => .Inl (e.substitute var replacement)
  | .Inr e => .Inr (e.substitute var replacement)
  | .Case scrut x left y right =>
      let new_scrut := scrut.substitute var replacement
      let new_left := if x = var then left else left.substitute var replacement
      let new_right := if y = var then right else right.substitute var replacement
      .Case new_scrut x new_left y new_right
  | .Fst e => .Fst (e.substitute var replacement)
  | .Snd e => .Snd (e.substitute var replacement)
  | .Abort e => .Abort (e.substitute var replacement)
  | .Promote e => .Promote (e.substitute var replacement)
  | .Derelict e => .Derelict (e.substitute var replacement)
  | .Discard discarded body =>
      .Discard (discarded.substitute var replacement) (body.substitute var replacement)
  | .Copy src x y body =>
      let new_src := src.substitute var replacement
      let new_body := if x = var || y = var then body else body.substitute var replacement
      .Copy new_src x y new_body

/-- `ParseError` from lolli-parse/src/lib.rs. -/
inductive ParseError where
  | UnexpectedToken (s : String)
  | UnknownOperator (s : String)
  | UnexpectedRule (s : String)
  | General (s : String)
deriving DecidableEq

/-- `parse_formula` from lolli-parse/src/lib.rs: the crate is a
placeholder, the function unconditionally returns
`Err(ParseError::General("Parser not yet implemented"))`. -/
def parse_formula (_input : String) : Except ParseError Formula :=
  .error (.General "Parser not yet implemented")

/-- `Extractor::extract` from lolli-extract/src/lib.rs: the crate is a
placeholder ("TODO: Implement in Issue #13"), the method ignores the
proof and unconditionally returns `Term::Unit`. -/
def extract (_proof : Proof) : Term := Term.Unit

/-- `ProverStats` from lolli-prove/src/search.rs. -/
structure ProverStats where
  sequents_explored : Nat
  cache_hits : Nat
  max_depth_reached : Nat
deriving DecidableEq

/-- `ProverStats::default()`. -/
def ProverStats.default : ProverStats :=
  { sequents_explored := 0, cache_hits := 0, max_depth_reached := 0 }

/-- `Prover` from lolli-prove/src/search.rs.  The Rust cache is a
`HashSet<Vec<String>>`; here a duplicate-free list of keys, consulted by
`List.contains` and grown by `cacheInsert`. -/
structure Prover where
  max_depth : Nat
  use_cache : Bool
  cache : List (List String)
  stats : ProverStats
deriving DecidableEq

/-- `Prover::new` from lolli-prove/src/search.rs. -/
def Prover.new (max_depth : Nat) : Prover :=
  { max_depth := max_depth, use_cache := true, cache := [], stats := ProverStats.default }

/-- `Prover::reset` from lolli-prove/src/search.rs: clear the cache and
reset statistics. -/
def Prover.reset (p : Prover) : Prover :=
  { p with cache := [], stats := ProverStats.default }

/-- `HashSet::insert` on the cache: add the key when absent. -/
def cacheInsert (c : List (List String)) (k : List String) : List (List String) :=
  if c.contains k then c else k :: c

/-- Rust `a <= b` on `String` (lexicographic). -/
def strLe (a b : String) : Bool := a < b || a == b

/-- Insert into a sorted list of strings (ascending). -/
def insertSorted (x : String) : List String → List String
  | [] => [x]
  | y :: ys => if strLe x y then x :: y :: ys else y :: insertSorted x ys

/-- `Vec::sort` on a list of strings, as insertion sort: the result is
the unique ascending ordering of the multiset, as in Rust. -/
def sortStrings : List String → List String
  | [] => []
  | x :: xs => insertSorted x (sortStrings xs)

/-- `Prover::sequent_key` from lolli-prove/src/search.rs: linear
pretty-prints plus "?"-tagged unrestricted pretty-prints, sorted. -/
def sequent_key (seq : Sequent) : List String :=
  sortStrings (seq.linear.map Formula.pretty ++
    seq.unrestricted.map (fun f => "?" ++ f.pretty))

/-- Split a list by the bits of `mask`: bit 0 sends the head left,
bit 1 sends it right (`(mask >> i) & 1` in Rust). -/
def maskSplit : Nat → List Formula → List Formula × List Formula
  | _, [] => ([], [])
  | mask, x :: xs =>
      let (l, r) := maskSplit (mask / 2) xs
      if mask % 2 == 0 then (x :: l, r) else (l, x :: r)

/-- `all_splits` from lolli-prove/src/search.rs: all `2^n` two-way
partitions of the list, in mask order `0, 1, …, 2^n - 1`. -/
def all_splits (items : List Formula) : List (List Formula × List Formula) :=
  (List.range (2 ^ items.length)).map (fun mask => maskSplit mask items)

/-- `Prover::try_axiom`'s inner scan (lolli-prove/src/search.rs): find a
`Formula::Atom name` at an index `j ≠ neg_idx` with the linear zone of
length exactly 2; on success the proof is an `Axiom` leaf. -/
def tryAxiomScan (seq : Sequent) (neg_idx : Nat) (name : String) :
    Nat → List Formula → Option Proof
  | _, [] => none
  | j, f :: rest =>
      if j ≠ neg_idx then
        match f with
        | .Atom other_name =>
            if name = other_name ∧ seq.linear.length = 2 then
              some (.mk seq .Axiom [])
            else tryAxiomScan seq neg_idx name (j + 1) rest
        | _ => tryAxiomScan seq neg_idx name (j + 1) rest
      else tryAxiomScan seq neg_idx name (j + 1) rest

/-- `Prover::try_axiom` from lolli-prove/src/search.rs. -/
def tryAxiom (seq : Sequent) (neg_idx : Nat) : Option Proof :=
  match seq.linear[neg_idx]? with
  | some (.NegAtom name) => tryAxiomScan seq neg_idx name 0 seq.linear
  | _ => none

/-- The loop of `Prover::prove_sync` over negated atoms: for each index
holding a `NegAtom`, try the axiom rule. -/
def negAtomScan (seq : Sequent) : Nat → List Formula → Option Proof
  | _, [] => none
  | i, f :: rest =>
      match f with
      | .NegAtom _ =>
          match tryAxiom seq i with
          | some proof => some proof
          | none => negAtomScan seq (i + 1) rest
      | _ => negAtomScan seq (i + 1) rest

/-- The inner scan of the `Formula::Atom` arm of `Prover::prove_focused`
(lolli-prove/src/search.rs): look for the matching `NegAtom` at `j ≠ idx`
with the linear zone of length exactly 2. -/
def atomFocusScan (seq : Sequent) (idx : Nat) (name : String) :
    Nat → List Formula → Option Proof
  | _, [] => none
  | j, f :: rest =>
      if j ≠ idx then
        match f with
        | .NegAtom other_name =>
            if name = other_name ∧ seq.linear.length = 2 then
              some (.mk seq .Axiom [])
            else atomFocusScan seq idx name (j + 1) rest
        | _ => atomFocusScan seq idx name (j + 1) rest
      else atomFocusScan seq idx name (j + 1) rest

/-- Record one sequent in the statistics, as the head of
`Prover::prove_with_depth` does. -/
def recordVisit (p : Prover) (depth : Nat) : Prover :=
  let p := { p with stats := { p.stats with
    sequents_explored := p.stats.sequents_explored + 1 } }
  if depth > p.stats.max_depth_reached then
    { p with stats := { p.stats with max_depth_reached := depth } }
  else p

/-- Outcome of a stateful search step: `none` is "out of gas" (never the
Rust behaviour — gas is an artifact of the embedding), `some (r, p')` is
the genuine result `r` with the updated prover `p'`. -/
abbrev SearchResult := Option (Option Proof × Prover)

mutual

/-- `Prover::prove_with_depth` from lolli-prove/src/search.rs: record
statistics, fail above the depth budget (uncached), consult the failure
cache, search via the asynchronous phase, and cache a failure. -/
def prove_with_depth : Nat → Prover → Sequent → Nat → SearchResult
  | 0, _, _, _ => none
  | gas + 1, p, seq, depth =>
      let p := recordVisit p depth
      if depth > p.max_depth then some (none, p)
      else
        let key := sequent_key seq
        if p.use_cache && p.cache.contains key then
          some (none, { p with stats := { p.stats with
            cache_hits := p.stats.cache_hits + 1 } })
        else
          match prove_async gas p seq depth with
          | none => none
          | some (result, p') =>
              if result.isNone && p'.use_cache then
                some (result, { p' with cache := cacheInsert p'.cache key })
              else some (result, p')
  termination_by structural g => g

/-- `Prover::prove_async` from lolli-prove/src/search.rs: the empty
sequent is not provable; otherwise scan the linear zone for the first
invertible (negative) formula. -/
def prove_async : Nat → Prover → Sequent → Nat → SearchResult
  | 0, _, _, _ => none
  | gas + 1, p, seq, depth =>
      if seq.linear.isEmpty && seq.focus.isNone then some (none, p)
      else asyncScan gas p seq depth 0 seq.linear
  termination_by structural g => g

/-- The `for (i, formula)` loop of `Prover::prove_async`: `rest` is
`seq.linear` from index `i` on.  The first match decides; a failure of
its premise fails the whole phase (no backtracking over the choice). -/
def asyncScan : Nat → Prover → Sequent → Nat → Nat → List Formula → SearchResult
  | 0, _, _, _, _, _ => none
  | gas + 1, p, seq, depth, i, rest =>
      match rest with
      | [] => prove_sync gas p seq depth
      | f :: rest' =>
          match f with
          | .Par a b =>
              let new_seq : Sequent :=
                { linear := seq.linear.eraseIdx i ++ [a, b],
                  unrestricted := seq.unrestricted, focus := none }
              match prove_with_depth gas p new_seq (depth + 1) with
              | none => none
              | some (some premise, p') =>
                  some (some (.mk seq .ParIntro [premise]), p')
              | some (none, p') => some (none, p')
          | .Bottom =>
              let new_seq : Sequent :=
                { linear := seq.linear.eraseIdx i,
                  unrestricted := seq.unrestricted, focus := none }
              match prove_with_depth gas p new_seq (depth + 1) with
              | none => none
              | some (some premise, p') =>
                  some (some (.mk seq .BottomIntro [premise]), p')
              | some (none, p') => some (none, p')
          | .Top => some (some (.mk seq .TopIntro []), p)
          | .With a b =>
              let left_seq : Sequent :=
                { linear := seq.linear.eraseIdx i ++ [a],
                  unrestricted := seq.unrestricted, focus := none }
              let right_seq : Sequent :=
                { linear := seq.linear.eraseIdx i ++ [b],
                  unrestricted := seq.unrestricted, focus := none }
              match prove_with_depth gas p left_seq (depth + 1) with
              | none => none
              | some (none, p') => some (none, p')
              | some (some left_proof, p') =>
                  match prove_with_depth gas p' right_seq (depth + 1) with
                  | none => none
                  | some (none, p'') => some (none, p'')
                  | some (some right_proof, p'') =>
                      some (some (.mk seq .WithIntro [left_proof, right_proof]), p'')
          | .WhyNot a =>
              let new_seq : Sequent :=
                { linear := seq.linear.eraseIdx i,
                  unrestricted := seq.unrestricted ++ [a], focus := none }
              match prove_with_depth gas p new_seq (depth + 1) with
              | none => none
              | some (some premise, p') =>
                  some (some (.mk seq .WhyNotIntro [premise]), p')
              | some (none, p') => some (none, p')
          | .Lolli a b =>
              let new_seq : Sequent :=
                { linear := seq.linear.set i (.Par a.negate b),
                  unrestricted := seq.unrestricted, focus := none }
              prove_with_depth gas p new_seq depth
          | _ => asyncScan gas p seq depth (i + 1) rest'
  termination_by structural g => g

/-- `Prover::prove_sync` from lolli-prove/src/search.rs: focus each
positive formula in order, then try negated atoms as axioms, then the
structural rules on the unrestricted zone (dereliction, contraction,
weakening, in that order). -/
def prove_sync : Nat → Prover → Sequent → Nat → SearchResult
  | 0, _, _, _ => none
  | gas + 1, p, seq, depth =>
      match syncFocusLoop gas p seq depth 0 with
      | none => none
      | some (some proof, p') => some (some proof, p')
      | some (none, p') =>
          match negAtomScan seq 0 seq.linear with
          | some proof => some (some proof, p')
          | none =>
              if !seq.unrestricted.isEmpty then
                match try_dereliction gas p' seq depth 0 with
                | none => none
                | some (some proof, p2) => some (some proof, p2)
                | some (none, p2) =>
                    match try_contraction gas p2 seq depth 0 with
                    | none => none
                    | some (some proof, p3) => some (some proof, p3)
                    | some (none, p3) =>
                        match try_weakening gas p3 seq depth 0 with
                        | none => none
                        | some (some proof, p4) => some (some proof, p4)
                        | some (none, p4) => some (none, p4)
              else some (none, p')
  termination_by structural g => g

/-- The first loop of `Prover::prove_sync`: for each index `i` whose
linear formula is positive, try `prove_focused`; the first success
wins. -/
def syncFocusLoop : Nat → Prover → Sequent → Nat → Nat → SearchResult
  | 0, _, _, _, _ => none
  | gas + 1, p, seq, depth, i =>
      match seq.linear[i]? with
      | none => some (none, p)
      | some f =>
          if f.is_positive then
            match prove_focused gas p seq i depth with
            | none => none
            | some (some proof, p') => some (some proof, p')
            | some (none, p') => syncFocusLoop gas p' seq depth (i + 1)
          else syncFocusLoop gas p seq depth (i + 1)
  termination_by structural g => g

/-- `Prover::prove_focused` from lolli-prove/src/search.rs: decompose
the positive formula at `idx`. -/
def prove_focused : Nat → Prover → Sequent → Nat → Nat → SearchResult
  | 0, _, _, _, _ => none
  | gas + 1, p, seq, idx, depth =>
      match seq.linear[idx]? with
      | none => some (none, p)
      | some formula =>
          match formula with
          | .Atom name =>
              match atomFocusScan seq idx name 0 seq.linear with
              | some proof => some (some proof, p)
              | none => some (none, p)
          | .One =>
              if seq.linear.length = 1 then
                some (some (.mk seq .OneIntro []), p)
              else some (none, p)
          | .Zero => some (none, p)
          | .Tensor a b =>
              let other_formulas := seq.linear.eraseIdx idx
              splitLoop gas p seq depth a b (all_splits other_formulas)
          | .Plus a b =>
              let left_seq : Sequent :=
                { linear := seq.linear.set idx a,
                  unrestricted := seq.unrestricted, focus := none }
              match prove_with_depth gas p left_seq (depth + 1) with
              | none => none
              | some (some premise, p') =>
                  some (some (.mk seq .PlusIntroLeft [premise]), p')
              | some (none, p') =>
                  let right_seq : Sequent :=
                    { linear := seq.linear.set idx b,
                      unrestricted := seq.unrestricted, focus := none }
                  match prove_with_depth gas p' right_seq (depth + 1) with
                  | none => none
                  | some (some premise, p'') =>
                      some (some (.mk seq .PlusIntroRight [premise]), p'')
                  | some (none, p'') => some (none, p'')
          | .OfCourse a =>
              if seq.linear.length = 1 then
                let new_seq : Sequent :=
                  { linear := [a], unrestricted := seq.unrestricted, focus := none }
                match prove_with_depth gas p new_seq (depth + 1) with
                | none => none
                | some (some premise, p') =>
                    some (some (.mk seq .OfCourseIntro [premise]), p')
                | some (none, p') => some (none, p')
              else some (none, p)
          | _ => some (none, p)
  termination_by structural g => g

/-- The `for split in all_splits(...)` loop of the `Tensor` arm of
`Prover::prove_focused`: first split with both branches provable wins. -/
def splitLoop : Nat → Prover → Sequent → Nat → Formula → Formula →
    List (List Formula × List Formula) → SearchResult
  | 0, _, _, _, _, _, _ => none
  | _ + 1, p, _, _, _, _, [] => some (none, p)
  | gas + 1, p, seq, depth, a, b, (left_ctx, right_ctx) :: rest =>
      let left_seq : Sequent :=
        { linear := left_ctx ++ [a], unrestricted := seq.unrestricted, focus := none }
      let right_seq : Sequent :=
        { linear := right_ctx ++ [b], unrestricted := seq.unrestricted, focus := none }
      match prove_with_depth gas p left_seq (depth + 1) with
      | none => none
      | some (none, p') => splitLoop gas p' seq depth a b rest
      | some (some left_proof, p') =>
          match prove_with_depth gas p' right_seq (depth + 1) with
          | none => none
          | some (none, p'') => splitLoop gas p'' seq depth a b rest
          | some (some right_proof, p'') =>
              some (some (.mk seq .TensorIntro [left_proof, right_proof]), p'')
  termination_by structural g => g

/-- `Prover::try_dereliction` from lolli-prove/src/search.rs: for each
index `i` of the unrestricted zone, move that formula into the linear
zone and recurse. -/
def try_dereliction : Nat → Prover → Sequent → Nat → Nat → SearchResult
  | 0, _, _, _, _ => none
  | gas + 1, p, seq, depth, i =>
      match seq.unrestricted[i]? with
      | none => some (none, p)
      | some formula =>
          let new_seq : Sequent :=
            { linear := seq.linear ++ [formula],
              unrestricted := seq.unrestricted.eraseIdx i, focus := none }
          match prove_with_depth gas p new_seq (depth + 1) with
          | none => none
          | some (some premise, p') =>
              some (some (.mk seq .Dereliction [premise]), p')
          | some (none, p') => try_dereliction gas p' seq depth (i + 1)
  termination_by structural g => g

/-- `Prover::try_contraction` from lolli-prove/src/search.rs: for each
index `i` of the unrestricted zone, append two copies to the linear zone
and recurse. -/
def try_contraction : Nat → Prover → Sequent → Nat → Nat → SearchResult
  | 0, _, _, _, _ => none
  | gas + 1, p, seq, depth, i =>
      match seq.unrestricted[i]? with
      | none => some (none, p)
      | some formula =>
          let new_seq : Sequent :=
            { linear := seq.linear ++ [formula, formula],
              unrestricted := seq.unrestricted.eraseIdx i, focus := none }
          match prove_with_depth gas p new_seq (depth + 1) with
          | none => none
          | some (some premise, p') =>
              some (some (.mk seq .Contraction [premise]), p')
          | some (none, p') => try_contraction gas p' seq depth (i + 1)
  termination_by structural g => g

/-- `Prover::try_weakening` from lolli-prove/src/search.rs: for each
index `i` of the unrestricted zone, drop that formula and recurse. -/
def try_weakening : Nat → Prover → Sequent → Nat → Nat → SearchResult
  | 0, _, _, _, _ => none
  | gas + 1, p, seq, depth, i =>
      match seq.unrestricted[i]? with
      | none => some (none, p)
      | some _ =>
          let new_seq : Sequent :=
            { linear := seq.linear,
              unrestricted := seq.unrestricted.eraseIdx i, focus := none }
          match prove_with_depth gas p new_seq (depth + 1) with
          | none => none
          | some (some premise, p') =>
              some (some (.mk seq .Weakening [premise]), p')
          | some (none, p') => try_weakening gas p' seq depth (i + 1)
  termination_by structural g => g

end

/-- `Prover::prove` from lolli-prove/src/search.rs: reset the statistics
(the cache is kept) and search from depth 0. -/
def Prover.prove (gas : Nat) (p : Prover) (seq : Sequent) : SearchResult :=
  prove_with_depth gas
    { p with stats :=
        { sequents_explored := 0, cache_hits := 0, max_depth_reached := 0 } }
    seq 0

/-- `Prover::prove_two_sided` from lolli-prove/src/search.rs. -/
def Prover.prove_two_sided (gas : Nat) (p : Prover) (seq : TwoSidedSequent) :
    SearchResult :=
  p.prove gas seq.to_one_sided

/-- Invariant of one search step relative to the entry prover `p`: the
configuration fields (`max_depth`, `use_cache`) survive, the cache only
grows, and any returned proof is cut-free. -/
def okRes (p : Prover) : SearchResult → Prop
  | none => True
  | some (r, p') =>
      p'.max_depth = p.max_depth ∧ p'.use_cache = p.use_cache ∧
      (∀ k, k ∈ p.cache → k ∈ p'.cache) ∧
      (∀ P, r = some P → P.cut_count = 0)

/-- The conclusion of a returned proof is the goal sequent itself. -/
def concRes (seq : Sequent) : SearchResult → Prop
  | some (some P, _) => P.conclusion = seq
  | _ => True

/-- C2 — the double negation of `A ⊸ B` is `A⊥ ⅋ B` (the desugared
form), not `A ⊸ B` itself: `negate` is not involutive on `Lolli`. -/
theorem negate_negate_lolli_ne :
    Formula.negate (Formula.negate (.Lolli (.Atom "A") (.Atom "B"))) ≠
      Formula.Lolli (.Atom "A") (.Atom "B") := by
  decide

/-- C2 (amended) — on every Lolli-free formula, `negate` is involutive:
`negate (negate F) = F`. -/
theorem negate_involutive_noLolli (F : Formula) (h : F.noLolli = true) :
    F.negate.negate = F := by
  induction F <;> simp_all [Formula.noLolli, Formula.negate]

/-- C2 (witness) — the amended involution at the concrete Lolli-free
formula `A ⊗ 1`. -/
theorem negate_involutive_noLolli_witness :
    (Formula.Tensor (.Atom "A") .One).noLolli = true ∧
      (Formula.Tensor (.Atom "A") .One).negate.negate =
        Formula.Tensor (.Atom "A") .One :=
  ⟨by decide, negate_involutive_noLolli (Formula.Tensor (.Atom "A") .One) (by decide)⟩

/-- C8 — `desugar` eliminates every `Lolli`: the result contains no
`Lolli` constructor anywhere. -/
theorem desugar_noLolli (F : Formula) : F.desugar.noLolli = true := by
  induction F using Formula.desugar.induct <;>
    simp_all [Formula.desugar, Formula.noLolli]

/-- C6 — `parse_formula` is an unimplemented stub: on the
pretty-printed form of the formula `A` (and of every formula) it returns
`Err(ParseError::General("Parser not yet implemented"))`, never `Ok`,
so the round-trip `parse_formula (pretty F) = Ok F` fails. -/
theorem parse_formula_stub :
    parse_formula ((Formula.Atom "A").pretty) =
      Except.error (ParseError.General "Parser not yet implemented") ∧
    ∀ F : Formula, parse_formula F.pretty ≠ Except.ok F :=
  ⟨rfl, fun _ h => Except.noConfusion h⟩

/-- C7 — `substitute` is not capture-avoiding: substituting `y` for the
free `x` under the binder `λy` captures the replacement's free variable.
`substitute (λy. x) x y = λy. y`, whose free-variable set is `∅`, while
the claimed equation demands `(fv(λy. x) \ {x}) ∪ fv(y) = {y}`. -/
theorem substitute_captures :
    (Term.Abs "y" (.Var "x")).substitute "x" (.Var "y") = Term.Abs "y" (.Var "y") ∧
    ((Term.Abs "y" (.Var "x")).substitute "x" (.Var "y")).free_vars = ∅ ∧
    ((Term.Abs "y" (.Var "x")).free_vars \ {"x"}) ∪ (Term.Var "y").free_vars =
      {"y"} ∧
    (∅ : Finset String) ≠ {"y"} := by
  refine ⟨rfl, ?_, ?_, ?_⟩ <;> decide

/-- C1 — the sequent `A ⊢ A` (one-sided `⊢ A⊥, A`) is proved by a
single `Axiom` leaf, but `Extractor::extract` is an unimplemented stub
(returns `Term::Unit` for every proof), so the extracted term is `Unit`
and not the variable `arg0` (nor any `Var`). -/
theorem extract_stub_on_identity :
    (Prover.prove 50 (Prover.new 100)
        { linear := [.NegAtom "A", .Atom "A"], unrestricted := [], focus := none }).map
        (fun r => r.1) =
      some (some (.mk
        { linear := [.NegAtom "A", .Atom "A"], unrestricted := [], focus := none }
        .Axiom [])) ∧
    extract (.mk
        { linear := [.NegAtom "A", .Atom "A"], unrestricted := [], focus := none }
        .Axiom []) = Term.Unit ∧
    ∀ v : String,
      extract (.mk
          { linear := [.NegAtom "A", .Atom "A"], unrestricted := [], focus := none }
          .Axiom []) ≠ Term.Var v :=
  ⟨rfl, rfl, fun _ h => Term.noConfusion h⟩

/-- C4 — `prove_two_sided` on `!A ⊢ A ⊗ A` returns a proof, but that
proof contains no `Contraction` at all (the unrestricted zone is copied
to both tensor branches), refuting "uses a `Contraction` followed by two
`Dereliction`s". -/
theorem bang_tensor_no_contraction :
    (Prover.prove_two_sided 200 (Prover.new 100)
        ⟨[.OfCourse (.Atom "A")], [.Tensor (.Atom "A") (.Atom "A")]⟩).map
        (fun r => r.1.map (fun pr => (pr.countRule .Contraction, pr.countRule .Dereliction))) =
      some (some (0, 2)) := rfl

/-- C4 (amended) — `prove_two_sided` on `!A ⊢ A ⊗ A` returns `Some`: the
proof is `WhyNotIntro` over `TensorIntro`, each tensor branch using one
`Dereliction` closed by an `Axiom` — two `Dereliction`s in total and no
`Contraction`. -/
theorem bang_tensor_proof_shape :
    (Prover.prove_two_sided 200 (Prover.new 100)
        ⟨[.OfCourse (.Atom "A")], [.Tensor (.Atom "A") (.Atom "A")]⟩).map
        (fun r => r.1) =
      some (some (.mk
        { linear := [.WhyNot (.NegAtom "A"), .Tensor (.Atom "A") (.Atom "A")],
          unrestricted := [], focus := none }
        .WhyNotIntro
        [.mk
          { linear := [.Tensor (.Atom "A") (.Atom "A")],
            unrestricted := [.NegAtom "A"], focus := none }
          .TensorIntro
          [.mk
            { linear := [.Atom "A"], unrestricted := [.NegAtom "A"], focus := none }
            .Dereliction
            [.mk
              { linear := [.Atom "A", .NegAtom "A"], unrestricted := [], focus := none }
              .Axiom []],
          .mk
            { linear := [.Atom "A"], unrestricted := [.NegAtom "A"], focus := none }
            .Dereliction
            [.mk
              { linear := [.Atom "A", .NegAtom "A"], unrestricted := [], focus := none }
              .Axiom []]]])) := rfl

/-- C10 — the `Axiom` and `OneIntro` leaf checks inspect only the
linear zone: with the linear zone exactly `{Atom a, NegAtom a}` (either
order), or exactly `{One}`, and an arbitrary non-empty unrestricted
zone, a fresh prover closes the goal with the corresponding leaf (no
premises, so no `Weakening` step), the unrestricted leftovers simply
discarded. -/
theorem leaf_rules_ignore_unrestricted :
    (∀ (gas md : Nat) (a : String) (u : List Formula), u ≠ [] →
      (Prover.prove (gas + 9) (Prover.new md)
          { linear := [.Atom a, .NegAtom a], unrestricted := u, focus := none }).map
        (fun r => r.1) =
      some (some (.mk
        { linear := [.Atom a, .NegAtom a], unrestricted := u, focus := none }
        .Axiom []))) ∧
    (∀ (gas md : Nat) (a : String) (u : List Formula), u ≠ [] →
      (Prover.prove (gas + 9) (Prover.new md)
          { linear := [.NegAtom a, .Atom a], unrestricted := u, focus := none }).map
        (fun r => r.1) =
      some (some (.mk
        { linear := [.NegAtom a, .Atom a], unrestricted := u, focus := none }
        .Axiom []))) ∧
    (∀ (gas md : Nat) (u : List Formula), u ≠ [] →
      (Prover.prove (gas + 9) (Prover.new md)
          { linear := [.One], unrestricted := u, focus := none }).map
        (fun r => r.1) =
      some (some (.mk
        { linear := [.One], unrestricted := u, focus := none }
        .OneIntro []))) := by
  refine ⟨?_, ?_, ?_⟩ <;> intro gas md <;>
    simp [Prover.prove, Prover.new, prove_with_depth, prove_async, asyncScan,
      prove_sync, syncFocusLoop, prove_focused, atomFocusScan, recordVisit,
      ProverStats.default, Formula.is_positive, List.contains, Nat.not_lt_zero]

/-- C10 (witness) — the three leaf cases at the concrete atom `A` and
unrestricted leftover `[B]`, with depth budget 7 and gas 9. -/
theorem leaf_rules_ignore_unrestricted_witness :
    ((Prover.prove 9 (Prover.new 7)
        { linear := [.Atom "A", .NegAtom "A"], unrestricted := [.Atom "B"],
          focus := none }).map (fun r => r.1) =
      some (some (.mk
        { linear := [.Atom "A", .NegAtom "A"], unrestricted := [.Atom "B"],
          focus := none } .Axiom []))) ∧
    ((Prover.prove 9 (Prover.new 7)
        { linear := [.NegAtom "A", .Atom "A"], unrestricted := [.Atom "B"],
          focus := none }).map (fun r => r.1) =
      some (some (.mk
        { linear := [.NegAtom "A", .Atom "A"], unrestricted := [.Atom "B"],
          focus := none } .Axiom []))) ∧
    ((Prover.prove 9 (Prover.new 7)
        { linear := [.One], unrestricted := [.Atom "B"], focus := none }).map
        (fun r => r.1) =
      some (some (.mk
        { linear := [.One], unrestricted := [.Atom "B"], focus := none }
        .OneIntro []))) :=
  ⟨leaf_rules_ignore_unrestricted.1 0 7 "A" [.Atom "B"] (by decide),
   leaf_rules_ignore_unrestricted.2.1 0 7 "A" [.Atom "B"] (by decide),
   leaf_rules_ignore_unrestricted.2.2 0 7 [.Atom "B"] (by decide)⟩

/-- C5 — the populated failure cache changes the result: with depth
budget 2, the first `prove` of
`⊢ (A⊥ ⅋ A) ⊗ ((A⊥ ⅋ A) ⊕ 1)` succeeds (caching the budget-limited
failure of the sub-goal `⊢ A⊥ ⅋ A` explored inside the `⊕`-left
branch), and the second `prove` of the same sequent on the same prover
fails: the two invocations do not return the same result. -/
theorem second_prove_differs :
    ((Prover.prove 60 (Prover.new 2)
        { linear := [.Tensor (.Par (.NegAtom "A") (.Atom "A"))
            (.Plus (.Par (.NegAtom "A") (.Atom "A")) .One)],
          unrestricted := [], focus := none }).bind
      (fun r =>
        (Prover.prove 60 r.2
            { linear := [.Tensor (.Par (.NegAtom "A") (.Atom "A"))
                (.Plus (.Par (.NegAtom "A") (.Atom "A")) .One)],
              unrestricted := [], focus := none }).map
          (fun r2 => (r.1.isSome, r2.1.isSome)))) = some (true, false) := rfl


/-! Supporting lemmas: the pure axiom scans only ever return an `Axiom`
leaf over the scanned sequent, and the stateful search functions
preserve the prover configuration, only grow the cache, and only build
cut-free proofs whose root conclusion is the goal sequent. -/

theorem atomFocusScan_some (seq : Sequent) (idx : Nat) (name : String) :
    ∀ (j : Nat) (rest : List Formula) (pr : Proof),
      atomFocusScan seq idx name j rest = some pr → pr = .mk seq .Axiom [] := by
  intro j rest
  induction rest generalizing j with
  | nil => intro pr h; simp [atomFocusScan] at h
  | cons f rest ih =>
      intro pr h
      simp only [atomFocusScan] at h
      split at h
      · split at h
        · split at h
          · injection h with h; exact h.symm
          · exact ih _ _ h
        · exact ih _ _ h
      · exact ih _ _ h

theorem tryAxiomScan_some (seq : Sequent) (idx : Nat) (name : String) :
    ∀ (j : Nat) (rest : List Formula) (pr : Proof),
      tryAxiomScan seq idx name j rest = some pr → pr = .mk seq .Axiom [] := by
  intro j rest
  induction rest generalizing j with
  | nil => intro pr h; simp [tryAxiomScan] at h
  | cons f rest ih =>
      intro pr h
      simp only [tryAxiomScan] at h
      split at h
      · split at h
        · split at h
          · injection h with h; exact h.symm
          · exact ih _ _ h
        · exact ih _ _ h
      · exact ih _ _ h

theorem tryAxiom_some (seq : Sequent) (i : Nat) (pr : Proof)
    (h : tryAxiom seq i = some pr) : pr = .mk seq .Axiom [] := by
  rw [tryAxiom] at h
  split at h
  · exact tryAxiomScan_some seq i _ _ _ _ h
  · exact absurd h (by simp)

theorem negAtomScan_some (seq : Sequent) :
    ∀ (i : Nat) (rest : List Formula) (pr : Proof),
      negAtomScan seq i rest = some pr → pr = .mk seq .Axiom [] := by
  intro i rest
  induction rest generalizing i with
  | nil => intro pr h; simp [negAtomScan] at h
  | cons f rest ih =>
      intro pr h
      simp only [negAtomScan] at h
      split at h
      · split at h
        · rename_i heq; injection h with h
          exact h ▸ tryAxiom_some seq _ _ heq
        · exact ih _ _ h
      · exact ih _ _ h

theorem cut_count_mk (c : Sequent) (r : Rule) (ps : List Proof) :
    (Proof.mk c r ps).cut_count = (if r.isCut then 1 else 0) + Proof.cut_count_list ps := by
  rw [Proof.cut_count]

theorem recordVisit_max_depth (p : Prover) (d : Nat) :
    (recordVisit p d).max_depth = p.max_depth := by
  rw [recordVisit]; split <;> rfl

theorem recordVisit_use_cache (p : Prover) (d : Nat) :
    (recordVisit p d).use_cache = p.use_cache := by
  rw [recordVisit]; split <;> rfl

theorem recordVisit_cache (p : Prover) (d : Nat) :
    (recordVisit p d).cache = p.cache := by
  rw [recordVisit]; split <;> rfl

theorem mem_cacheInsert_of_mem {c : List (List String)} {k : List String}
    (k' : List String) (h : k ∈ c) : k ∈ cacheInsert c k' := by
  rw [cacheInsert]; split
  · exact h
  · exact List.mem_cons_of_mem _ h

theorem mem_cacheInsert_self (c : List (List String)) (k : List String) :
    k ∈ cacheInsert c k := by
  rw [cacheInsert]; split
  · rename_i h; simpa using h
  · exact List.mem_cons_self _ _

/-- `okRes` for a result returned unchanged from state `q` reached from `p`. -/
theorem okRes_trans {p q : Prover} (hmd : q.max_depth = p.max_depth)
    (huc : q.use_cache = p.use_cache) (hc : ∀ k, k ∈ p.cache → k ∈ q.cache)
    {r : SearchResult} (h : okRes q r) : okRes p r := by
  match r with
  | none => trivial
  | some (r', q') =>
      obtain ⟨h1, h2, h3, h4⟩ := h
      exact ⟨h1.trans hmd, h2.trans huc, fun k hk => h3 k (hc k hk), h4⟩

theorem okRes_failure {p q : Prover} (hmd : q.max_depth = p.max_depth)
    (huc : q.use_cache = p.use_cache) (hc : ∀ k, k ∈ p.cache → k ∈ q.cache) :
    okRes p (some (none, q)) :=
  ⟨hmd, huc, hc, fun _ h => Option.noConfusion h⟩

theorem okRes_self_failure (p : Prover) : okRes p (some (none, p)) :=
  okRes_failure rfl rfl (fun _ h => h)

theorem okRes_leaf {p q : Prover} (hmd : q.max_depth = p.max_depth)
    (huc : q.use_cache = p.use_cache) (hc : ∀ k, k ∈ p.cache → k ∈ q.cache)
    (seq : Sequent) {rule : Rule} (hr : rule.isCut = false) :
    okRes p (some (some (.mk seq rule []), q)) := by
  refine ⟨hmd, huc, hc, fun P hP => ?_⟩
  injection hP with hP
  subst hP
  simp [cut_count_mk, hr, Proof.cut_count_list]

theorem okRes_self_leaf (p : Prover) (seq : Sequent) {rule : Rule}
    (hr : rule.isCut = false) : okRes p (some (some (.mk seq rule []), p)) :=
  okRes_leaf rfl rfl (fun _ h => h) seq hr

/-- Wrap one premise obtained at state `q` into a non-`Cut` node. -/
theorem okRes_build1 {p q : Prover} {pr : Proof}
    (h : okRes p (some (some pr, q))) (seq : Sequent) {rule : Rule}
    (hr : rule.isCut = false) :
    okRes p (some (some (.mk seq rule [pr]), q)) := by
  obtain ⟨h1, h2, h3, h4⟩ := h
  refine ⟨h1, h2, h3, fun P hP => ?_⟩
  injection hP with hP
  subst hP
  simp [cut_count_mk, hr, Proof.cut_count_list, h4 pr rfl]

/-- Wrap two premises obtained in sequence into a non-`Cut` node. -/
theorem okRes_build2 {p q1 q2 : Prover} {pr1 pr2 : Proof}
    (h : okRes p (some (some pr1, q1))) (h' : okRes q1 (some (some pr2, q2)))
    (seq : Sequent) {rule : Rule} (hr : rule.isCut = false) :
    okRes p (some (some (.mk seq rule [pr1, pr2]), q2)) := by
  obtain ⟨h1, h2, h3, h4⟩ := h
  obtain ⟨h1', h2', h3', h4'⟩ := h'
  refine ⟨h1'.trans h1, h2'.trans h2, fun k hk => h3' k (h3 k hk), fun P hP => ?_⟩
  injection hP with hP
  subst hP
  simp [cut_count_mk, hr, Proof.cut_count_list, h4 pr1 rfl, h4' pr2 rfl]

theorem okRes_recordVisit {p : Prover} {d : Nat} {r : SearchResult}
    (h : okRes (recordVisit p d) r) : okRes p r :=
  okRes_trans (recordVisit_max_depth p d) (recordVisit_use_cache p d)
    (fun k hk => by rw [recordVisit_cache]; exact hk) h

theorem okRes_of_eq {p : Prover} {r r' : SearchResult} (h : r = r')
    (hok : okRes p r) : okRes p r' := h ▸ hok

set_option maxHeartbeats 1000000 in
theorem search_okRes : ∀ gas : Nat,
    (∀ p seq depth, okRes p (prove_with_depth gas p seq depth)) ∧
    (∀ p seq depth i rest, okRes p (asyncScan gas p seq depth i rest)) ∧
    (∀ p seq depth, okRes p (prove_async gas p seq depth)) ∧
    (∀ p seq depth, okRes p (prove_sync gas p seq depth)) ∧
    (∀ p seq depth i, okRes p (syncFocusLoop gas p seq depth i)) ∧
    (∀ p seq idx depth, okRes p (prove_focused gas p seq idx depth)) ∧
    (∀ p seq depth a b splits, okRes p (splitLoop gas p seq depth a b splits)) ∧
    (∀ p seq depth i, okRes p (try_dereliction gas p seq depth i)) ∧
    (∀ p seq depth i, okRes p (try_contraction gas p seq depth i)) ∧
    (∀ p seq depth i, okRes p (try_weakening gas p seq depth i)) := by
  intro gas
  induction gas with
  | zero =>
      refine ⟨?_, ?_, ?_, ?_, ?_, ?_, ?_, ?_, ?_, ?_⟩ <;> intros <;> trivial
  | succ gas IH =>
      obtain ⟨IHwd, IHscan, IHasync, IHsync, IHfloop, IHfocus, IHsplit,
        IHder, IHcon, IHweak⟩ := IH
      refine ⟨?_, ?_, ?_, ?_, ?_, ?_, ?_, ?_, ?_, ?_⟩
      -- prove_with_depth
      · intro p seq depth
        simp only [prove_with_depth]
        split
        · exact okRes_failure (recordVisit_max_depth p depth)
            (recordVisit_use_cache p depth)
            (fun k hk => by rw [recordVisit_cache]; exact hk)
        · split
          · exact okRes_failure (recordVisit_max_depth p depth)
              (recordVisit_use_cache p depth)
              (fun k hk => by rw [recordVisit_cache]; exact hk)
          · split
            · trivial
            · rename_i result p' heq
              have hok := IHasync (recordVisit p depth) seq depth
              rw [heq] at hok
              obtain ⟨h1, h2, h3, h4⟩ := hok
              split
              · refine ⟨h1.trans (recordVisit_max_depth p depth),
                  h2.trans (recordVisit_use_cache p depth),
                  fun k hk => mem_cacheInsert_of_mem _ ?_, h4⟩
                exact h3 k (by rw [recordVisit_cache]; exact hk)
              · exact ⟨h1.trans (recordVisit_max_depth p depth),
                  h2.trans (recordVisit_use_cache p depth),
                  fun k hk => h3 k (by rw [recordVisit_cache]; exact hk), h4⟩
      -- asyncScan
      · intro p seq depth i rest
        match rest with
        | [] => simp only [asyncScan]; exact IHsync p seq depth
        | f :: rest' =>
          match f with
          | .Atom _ => simp only [asyncScan]; exact IHscan p seq depth (i+1) rest'
          | .NegAtom _ => simp only [asyncScan]; exact IHscan p seq depth (i+1) rest'
          | .One => simp only [asyncScan]; exact IHscan p seq depth (i+1) rest'
          | .Zero => simp only [asyncScan]; exact IHscan p seq depth (i+1) rest'
          | .Tensor _ _ => simp only [asyncScan]; exact IHscan p seq depth (i+1) rest'
          | .Plus _ _ => simp only [asyncScan]; exact IHscan p seq depth (i+1) rest'
          | .OfCourse _ => simp only [asyncScan]; exact IHscan p seq depth (i+1) rest'
          | .Top => simp only [asyncScan]; exact okRes_self_leaf p seq rfl
          | .Par a b =>
              simp only [asyncScan]
              split
              · trivial
              · rename_i premise p' heq
                have hok := okRes_of_eq heq (IHwd p _ (depth + 1))
                exact okRes_build1 hok seq rfl
              · rename_i p' heq
                have hok := okRes_of_eq heq (IHwd p _ (depth + 1))
                exact hok
          | .Bottom =>
              simp only [asyncScan]
              split
              · trivial
              · rename_i premise p' heq
                have hok := okRes_of_eq heq (IHwd p _ (depth + 1))
                exact okRes_build1 hok seq rfl
              · rename_i p' heq
                have hok := okRes_of_eq heq (IHwd p _ (depth + 1))
                exact hok
          | .WhyNot a =>
              simp only [asyncScan]
              split
              · trivial
              · rename_i premise p' heq
                have hok := okRes_of_eq heq (IHwd p _ (depth + 1))
                exact okRes_build1 hok seq rfl
              · rename_i p' heq
                have hok := okRes_of_eq heq (IHwd p _ (depth + 1))
                exact hok
          | .With a b =>
              simp only [asyncScan]
              split
              · trivial
              · rename_i p' heq
                have hok := okRes_of_eq heq (IHwd p _ (depth + 1))
                exact hok
              · rename_i lp p' heq
                have hok := okRes_of_eq heq (IHwd p _ (depth + 1))
                split
                · trivial
                · rename_i p'' heq2
                  have hok2 := okRes_of_eq heq2 (IHwd p' _ (depth + 1))
                  exact okRes_trans hok.1 hok.2.1 hok.2.2.1 hok2
                · rename_i rp p'' heq2
                  have hok2 := okRes_of_eq heq2 (IHwd p' _ (depth + 1))
                  exact okRes_build2 hok hok2 seq rfl
          | .Lolli a b =>
              simp only [asyncScan]
              exact IHwd p _ depth
      -- prove_async
      · intro p seq depth
        simp only [prove_async]
        split
        · exact okRes_self_failure p
        · exact IHscan p seq depth 0 seq.linear
      -- prove_sync
      · intro p seq depth
        simp only [prove_sync]
        split
        · trivial
        · rename_i proof p' heq
          have hok := IHfloop p seq depth 0
          rw [heq] at hok
          exact hok
        · rename_i p' heq
          have hok := IHfloop p seq depth 0
          rw [heq] at hok
          obtain ⟨h1, h2, h3, _⟩ := hok
          split
          · rename_i proof heq2
            rw [negAtomScan_some seq 0 seq.linear proof heq2]
            exact okRes_leaf h1 h2 h3 seq rfl
          · split
            · split
              · trivial
              · rename_i proof p2 heqd
                have hd := IHder p' seq depth 0
                rw [heqd] at hd
                exact okRes_trans h1 h2 h3 hd
              · rename_i p2 heqd
                have hd := IHder p' seq depth 0
                rw [heqd] at hd
                obtain ⟨hd1, hd2, hd3, _⟩ := hd
                split
                · trivial
                · rename_i proof p3 heqc
                  have hc := IHcon p2 seq depth 0
                  rw [heqc] at hc
                  exact okRes_trans h1 h2 h3 (okRes_trans hd1 hd2 hd3 hc)
                · rename_i p3 heqc
                  have hc := IHcon p2 seq depth 0
                  rw [heqc] at hc
                  obtain ⟨hc1, hc2, hc3, _⟩ := hc
                  split
                  · trivial
                  · rename_i proof p4 heqw
                    have hw := IHweak p3 seq depth 0
                    rw [heqw] at hw
                    exact okRes_trans h1 h2 h3 (okRes_trans hd1 hd2 hd3
                      (okRes_trans hc1 hc2 hc3 hw))
                  · rename_i p4 heqw
                    have hw := IHweak p3 seq depth 0
                    rw [heqw] at hw
                    exact okRes_trans h1 h2 h3 (okRes_trans hd1 hd2 hd3
                      (okRes_trans hc1 hc2 hc3 hw))
            · exact ⟨h1, h2, h3, fun P hP => Option.noConfusion hP⟩
      -- syncFocusLoop
      · intro p seq depth i
        simp only [syncFocusLoop]
        split
        · exact okRes_self_failure p
        · split
          · split
            · trivial
            · rename_i proof p' heq
              have hok := IHfocus p seq i depth
              rw [heq] at hok
              exact hok
            · rename_i p' heq
              have hok := IHfocus p seq i depth
              rw [heq] at hok
              exact okRes_trans hok.1 hok.2.1 hok.2.2.1 (IHfloop p' seq depth (i+1))
          · exact IHfloop p seq depth (i+1)
      -- prove_focused
      · intro p seq idx depth
        simp only [prove_focused]
        split
        · exact okRes_self_failure p
        · rename_i formula hidx
          match formula with
          | .Atom name =>
              simp only
              split
              · rename_i proof heq
                rw [atomFocusScan_some seq idx name 0 seq.linear proof heq]
                exact okRes_self_leaf p seq rfl
              · exact okRes_self_failure p
          | .One =>
              simp only
              split
              · exact okRes_self_leaf p seq rfl
              · exact okRes_self_failure p
          | .Zero => exact okRes_self_failure p
          | .Tensor a b => exact IHsplit p seq depth a b _
          | .Plus a b =>
              simp only
              split
              · trivial
              · rename_i premise p' heq
                have hok := okRes_of_eq heq (IHwd p _ (depth + 1))
                exact okRes_build1 hok seq rfl
              · rename_i p' heq
                have hok := okRes_of_eq heq (IHwd p _ (depth + 1))
                split
                · trivial
                · rename_i premise p'' heq2
                  have hok2 := okRes_of_eq heq2 (IHwd p' _ (depth + 1))
                  exact okRes_trans hok.1 hok.2.1 hok.2.2.1 (okRes_build1 hok2 seq rfl)
                · rename_i p'' heq2
                  have hok2 := okRes_of_eq heq2 (IHwd p' _ (depth + 1))
                  exact okRes_trans hok.1 hok.2.1 hok.2.2.1 hok2
          | .OfCourse a =>
              simp only
              split
              · split
                · trivial
                · rename_i premise p' heq
                  have hok := okRes_of_eq heq (IHwd p _ (depth + 1))
                  exact okRes_build1 hok seq rfl
                · rename_i p' heq
                  have hok := okRes_of_eq heq (IHwd p _ (depth + 1))
                  exact hok
              · exact okRes_self_failure p
          | .NegAtom _ => exact okRes_self_failure p
          | .Par _ _ => exact okRes_self_failure p
          | .Bottom => exact okRes_self_failure p
          | .With _ _ => exact okRes_self_failure p
          | .Top => exact okRes_self_failure p
          | .WhyNot _ => exact okRes_self_failure p
          | .Lolli _ _ => exact okRes_self_failure p
      -- splitLoop
      · intro p seq depth a b splits
        match splits with
        | [] => simp only [splitLoop]; exact okRes_self_failure p
        | (left_ctx, right_ctx) :: rest =>
            simp only [splitLoop]
            split
            · trivial
            · rename_i p' heq
              have hok := okRes_of_eq heq (IHwd p _ (depth + 1))
              exact okRes_trans hok.1 hok.2.1 hok.2.2.1 (IHsplit p' seq depth a b rest)
            · rename_i lp p' heq
              have hok := okRes_of_eq heq (IHwd p _ (depth + 1))
              split
              · trivial
              · rename_i p'' heq2
                have hok2 := okRes_of_eq heq2 (IHwd p' _ (depth + 1))
                exact okRes_trans hok.1 hok.2.1 hok.2.2.1
                  (okRes_trans hok2.1 hok2.2.1 hok2.2.2.1 (IHsplit p'' seq depth a b rest))
              · rename_i rp p'' heq2
                have hok2 := okRes_of_eq heq2 (IHwd p' _ (depth + 1))
                exact okRes_build2 hok hok2 seq rfl
      -- try_dereliction
      · intro p seq depth i
        simp only [try_dereliction]
        split
        · exact okRes_self_failure p
        · split
          · trivial
          · rename_i premise p' heq
            have hok := okRes_of_eq heq (IHwd p _ (depth + 1))
            exact okRes_build1 hok seq rfl
          · rename_i p' heq
            have hok := okRes_of_eq heq (IHwd p _ (depth + 1))
            exact okRes_trans hok.1 hok.2.1 hok.2.2.1 (IHder p' seq depth (i+1))
      -- try_contraction
      · intro p seq depth i
        simp only [try_contraction]
        split
        · exact okRes_self_failure p
        · split
          · trivial
          · rename_i premise p' heq
            have hok := okRes_of_eq heq (IHwd p _ (depth + 1))
            exact okRes_build1 hok seq rfl
          · rename_i p' heq
            have hok := okRes_of_eq heq (IHwd p _ (depth + 1))
            exact okRes_trans hok.1 hok.2.1 hok.2.2.1 (IHcon p' seq depth (i+1))
      -- try_weakening
      · intro p seq depth i
        simp only [try_weakening]
        split
        · exact okRes_self_failure p
        · split
          · trivial
          · rename_i premise p' heq
            have hok := okRes_of_eq heq (IHwd p _ (depth + 1))
            exact okRes_build1 hok seq rfl
          · rename_i p' heq
            have hok := okRes_of_eq heq (IHwd p _ (depth + 1))
            exact okRes_trans hok.1 hok.2.1 hok.2.2.1 (IHweak p' seq depth (i+1))

theorem concRes_of_eq {seq : Sequent} {r r' : SearchResult} (h : r = r')
    (hc : concRes seq r) : concRes seq r' := h ▸ hc

theorem concRes_failure (seq : Sequent) (p : Prover) : concRes seq (some (none, p)) :=
  trivial

theorem concRes_node (seq : Sequent) (p : Prover) (rule : Rule) (prems : List Proof) :
    concRes seq (some (some (.mk seq rule prems), p)) := rfl

set_option maxHeartbeats 1000000 in
theorem search_concRes : ∀ gas : Nat,
    (∀ p seq depth, (∀ f ∈ seq.linear, f.isLolli = false) →
      concRes seq (prove_with_depth gas p seq depth)) ∧
    (∀ p seq depth i rest, (∀ f ∈ rest, f.isLolli = false) →
      concRes seq (asyncScan gas p seq depth i rest)) ∧
    (∀ p seq depth, (∀ f ∈ seq.linear, f.isLolli = false) →
      concRes seq (prove_async gas p seq depth)) ∧
    (∀ p seq depth, concRes seq (prove_sync gas p seq depth)) ∧
    (∀ p seq depth i, concRes seq (syncFocusLoop gas p seq depth i)) ∧
    (∀ p seq idx depth, concRes seq (prove_focused gas p seq idx depth)) ∧
    (∀ p seq depth a b splits, concRes seq (splitLoop gas p seq depth a b splits)) ∧
    (∀ p seq depth i, concRes seq (try_dereliction gas p seq depth i)) ∧
    (∀ p seq depth i, concRes seq (try_contraction gas p seq depth i)) ∧
    (∀ p seq depth i, concRes seq (try_weakening gas p seq depth i)) := by
  intro gas
  induction gas with
  | zero =>
      refine ⟨?_, ?_, ?_, ?_, ?_, ?_, ?_, ?_, ?_, ?_⟩ <;> intros <;> trivial
  | succ gas IH =>
      obtain ⟨IHwd, IHscan, IHasync, IHsync, IHfloop, IHfocus, IHsplit,
        IHder, IHcon, IHweak⟩ := IH
      refine ⟨?_, ?_, ?_, ?_, ?_, ?_, ?_, ?_, ?_, ?_⟩
      -- prove_with_depth
      · intro p seq depth hseq
        simp only [prove_with_depth]
        split
        · trivial
        · split
          · trivial
          · split
            · trivial
            · rename_i result p' heq
              have hc := concRes_of_eq heq
                (IHasync (recordVisit p depth) seq depth hseq)
              split
              · match result with
                | none => trivial
                | some P => exact hc
              · exact hc
      -- asyncScan
      · intro p seq depth i rest hrest
        match rest with
        | [] => simp only [asyncScan]; exact IHsync p seq depth
        | f :: rest' =>
          have hrest' : ∀ f ∈ rest', f.isLolli = false :=
            fun g hg => hrest g (List.mem_cons_of_mem _ hg)
          match f with
          | .Atom _ => simp only [asyncScan]; exact IHscan p seq depth (i+1) rest' hrest'
          | .NegAtom _ => simp only [asyncScan]; exact IHscan p seq depth (i+1) rest' hrest'
          | .One => simp only [asyncScan]; exact IHscan p seq depth (i+1) rest' hrest'
          | .Zero => simp only [asyncScan]; exact IHscan p seq depth (i+1) rest' hrest'
          | .Tensor _ _ => simp only [asyncScan]; exact IHscan p seq depth (i+1) rest' hrest'
          | .Plus _ _ => simp only [asyncScan]; exact IHscan p seq depth (i+1) rest' hrest'
          | .OfCourse _ => simp only [asyncScan]; exact IHscan p seq depth (i+1) rest' hrest'
          | .Top => simp only [asyncScan]; exact concRes_node seq p .TopIntro []
          | .Par a b =>
              simp only [asyncScan]
              split
              · trivial
              · rename_i premise p' heq; exact concRes_node seq p' .ParIntro [premise]
              · trivial
          | .Bottom =>
              simp only [asyncScan]
              split
              · trivial
              · rename_i premise p' heq; exact concRes_node seq p' .BottomIntro [premise]
              · trivial
          | .WhyNot a =>
              simp only [asyncScan]
              split
              · trivial
              · rename_i premise p' heq; exact concRes_node seq p' .WhyNotIntro [premise]
              · trivial
          | .With a b =>
              simp only [asyncScan]
              split
              · trivial
              · trivial
              · rename_i lp p' heq
                split
                · trivial
                · trivial
                · rename_i rp p'' heq2
                  exact concRes_node seq p'' .WithIntro [lp, rp]
          | .Lolli a b =>
              have := hrest (.Lolli a b) (List.mem_cons_self _ _)
              simp [Formula.isLolli] at this
      -- prove_async
      · intro p seq depth hseq
        simp only [prove_async]
        split
        · trivial
        · exact IHscan p seq depth 0 seq.linear hseq
      -- prove_sync
      · intro p seq depth
        simp only [prove_sync]
        split
        · trivial
        · rename_i proof p' heq
          exact concRes_of_eq heq (IHfloop p seq depth 0)
        · rename_i p' heq
          split
          · rename_i proof heq2
            rw [negAtomScan_some seq 0 seq.linear proof heq2]
            exact concRes_node seq p' .Axiom []
          · split
            · split
              · trivial
              · rename_i proof p2 heqd
                exact concRes_of_eq heqd (IHder p' seq depth 0)
              · split
                · trivial
                · rename_i proof p3 heqc
                  exact concRes_of_eq heqc (IHcon _ seq depth 0)
                · split
                  · trivial
                  · rename_i proof p4 heqw
                    exact concRes_of_eq heqw (IHweak _ seq depth 0)
                  · trivial
            · trivial
      -- syncFocusLoop
      · intro p seq depth i
        simp only [syncFocusLoop]
        split
        · trivial
        · split
          · split
            · trivial
            · rename_i proof p' heq
              exact concRes_of_eq heq (IHfocus p seq i depth)
            · exact IHfloop _ seq depth (i+1)
          · exact IHfloop p seq depth (i+1)
      -- prove_focused
      · intro p seq idx depth
        simp only [prove_focused]
        split
        · trivial
        · rename_i formula hidx
          match formula with
          | .Atom name =>
              simp only
              split
              · rename_i proof heq
                rw [atomFocusScan_some seq idx name 0 seq.linear proof heq]
                exact concRes_node seq p .Axiom []
              · trivial
          | .One =>
              simp only
              split
              · exact concRes_node seq p .OneIntro []
              · trivial
          | .Zero => trivial
          | .Tensor a b => exact IHsplit p seq depth a b _
          | .Plus a b =>
              simp only
              split
              · trivial
              · rename_i premise p' heq
                exact concRes_node seq p' .PlusIntroLeft [premise]
              · split
                · trivial
                · rename_i premise p'' heq2
                  exact concRes_node seq p'' .PlusIntroRight [premise]
                · trivial
          | .OfCourse a =>
              simp only
              split
              · split
                · trivial
                · rename_i premise p' heq
                  exact concRes_node seq p' .OfCourseIntro [premise]
                · trivial
              · trivial
          | .NegAtom _ => trivial
          | .Par _ _ => trivial
          | .Bottom => trivial
          | .With _ _ => trivial
          | .Top => trivial
          | .WhyNot _ => trivial
          | .Lolli _ _ => trivial
      -- splitLoop
      · intro p seq depth a b splits
        match splits with
        | [] => simp only [splitLoop]; trivial
        | (left_ctx, right_ctx) :: rest =>
            simp only [splitLoop]
            split
            · trivial
            · exact IHsplit _ seq depth a b rest
            · rename_i lp p' heq
              split
              · trivial
              · exact IHsplit _ seq depth a b rest
              · rename_i rp p'' heq2
                exact concRes_node seq p'' .TensorIntro [lp, rp]
      -- try_dereliction
      · intro p seq depth i
        simp only [try_dereliction]
        split
        · trivial
        · split
          · trivial
          · rename_i premise p' heq
            exact concRes_node seq p' .Dereliction [premise]
          · exact IHder _ seq depth (i+1)
      -- try_contraction
      · intro p seq depth i
        simp only [try_contraction]
        split
        · trivial
        · split
          · trivial
          · rename_i premise p' heq
            exact concRes_node seq p' .Contraction [premise]
          · exact IHcon _ seq depth (i+1)
      -- try_weakening
      · intro p seq depth i
        simp only [try_weakening]
        split
        · trivial
        · split
          · trivial
          · rename_i premise p' heq
            exact concRes_node seq p' .Weakening [premise]
          · exact IHweak _ seq depth (i+1)

theorem key_cached_after_failure :
    ∀ (gas : Nat) (p : Prover) (seq : Sequent) (st : Prover),
      p.use_cache = true →
      Prover.prove gas p seq = some (none, st) →
      sequent_key seq ∈ st.cache ∧ st.use_cache = true := by
  intro gas p seq st huc h
  match gas with
  | 0 => exact Option.noConfusion h
  | g + 1 =>
    simp only [Prover.prove, prove_with_depth] at h
    split at h
    · rename_i hlt
      rw [recordVisit_max_depth] at hlt
      exact absurd hlt (Nat.not_lt_zero _)
    · split at h
      · rename_i hcond
        injection h with h
        injection h with h1 h2
        subst h2
        constructor
        · simp only [recordVisit_cache] at hcond ⊢
          have := (Bool.and_eq_true _ _).mp hcond
          simpa using this.2
        · simpa [recordVisit_use_cache] using huc
      · split at h
        · exact Option.noConfusion h
        · rename_i result p' heq
          have hok := (search_okRes g).2.2.1 (recordVisit { p with stats := ⟨0,0,0⟩ } 0) seq 0
          rw [heq] at hok
          have huc' : p'.use_cache = true := by
            rw [hok.2.1, recordVisit_use_cache]; exact huc
          split at h
          · injection h with h
            injection h with h1 h2
            subst h2
            refine ⟨?_, huc'⟩
            exact mem_cacheInsert_self _ _
          · rename_i hcond
            injection h with h
            injection h with h1 h2
            subst h1
            exact absurd (by simp [huc']) hcond

theorem prove_cache_hit :
    ∀ (gas : Nat) (st : Prover) (seq : Sequent),
      st.use_cache = true → sequent_key seq ∈ st.cache →
      (Prover.prove (gas + 1) st seq).map (fun r => r.1) = some none := by
  intro gas st seq huc hmem
  simp only [Prover.prove, prove_with_depth]
  split
  · rename_i hlt
    rw [recordVisit_max_depth] at hlt
    exact absurd hlt (Nat.not_lt_zero _)
  · split
    · rfl
    · rename_i hcond
      exfalso
      apply hcond
      rw [Bool.and_eq_true]
      refine ⟨by simpa [recordVisit_use_cache] using huc, ?_⟩
      simp only [recordVisit_cache]
      simpa using hmem

/-- C3 (counterexample) — on `⊢ (A ⊸ A)` the search succeeds, but the
returned proof's conclusion is the rewritten sequent `⊢ (A⊥ ⅋ A)`, not
the input sequent: the async-phase `Lolli` rewrite returns the
sub-proof unchanged. -/
theorem lolli_changes_conclusion :
    (Prover.prove 50 (Prover.new 100)
        { linear := [.Lolli (.Atom "A") (.Atom "A")], unrestricted := [],
          focus := none }).map
      (fun r => r.1.map (fun pr => pr.conclusion)) =
      some (some { linear := [.Par (.NegAtom "A") (.Atom "A")],
                   unrestricted := [], focus := none }) ∧
    ({ linear := [.Par (.NegAtom "A") (.Atom "A")], unrestricted := [],
       focus := none } : Sequent) ≠
      { linear := [.Lolli (.Atom "A") (.Atom "A")], unrestricted := [],
        focus := none } :=
  ⟨rfl, by decide⟩

/-- C3 (amended) — every proof returned by `Prover::prove` is cut-free
(`cut_count = 0`); and its conclusion is the input sequent whenever no
member of the input's linear zone is a `Lolli` formula (a top-level
`Lolli` is rewritten in place and the returned conclusion is the
rewritten sequent). -/
theorem prove_cut_free_and_conclusion :
    (∀ (gas : Nat) (p : Prover) (seq : Sequent) (P : Proof) (st : Prover),
      Prover.prove gas p seq = some (some P, st) → P.cut_count = 0) ∧
    (∀ (gas : Nat) (p : Prover) (seq : Sequent) (P : Proof) (st : Prover),
      (∀ f ∈ seq.linear, f.isLolli = false) →
      Prover.prove gas p seq = some (some P, st) → P.conclusion = seq) := by
  constructor
  · intro gas p seq P st h
    have hok := (search_okRes gas).1
      { p with stats := ⟨0, 0, 0⟩ } seq 0
    simp only [Prover.prove] at h
    rw [h] at hok
    exact hok.2.2.2 P rfl
  · intro gas p seq P st hseq h
    have hc := (search_concRes gas).1
      { p with stats := ⟨0, 0, 0⟩ } seq 0 hseq
    simp only [Prover.prove] at h
    rw [h] at hc
    exact hc

/-- C3 (witness) — both parts at the concrete sequent `⊢ A⊥, A`, whose
proof is the `Axiom` leaf. -/
theorem prove_cut_free_and_conclusion_witness :
    (Proof.mk { linear := [.NegAtom "A", .Atom "A"], unrestricted := [],
                focus := none } .Axiom []).cut_count = 0 ∧
    (Proof.mk { linear := [.NegAtom "A", .Atom "A"], unrestricted := [],
                focus := none } .Axiom []).conclusion =
      { linear := [.NegAtom "A", .Atom "A"], unrestricted := [], focus := none } :=
  ⟨prove_cut_free_and_conclusion.1 50 (Prover.new 100)
      { linear := [.NegAtom "A", .Atom "A"], unrestricted := [], focus := none }
      (Proof.mk { linear := [.NegAtom "A", .Atom "A"], unrestricted := [],
                  focus := none } .Axiom [])
      ⟨100, true, [], ⟨1, 0, 0⟩⟩ rfl,
   prove_cut_free_and_conclusion.2 50 (Prover.new 100)
      { linear := [.NegAtom "A", .Atom "A"], unrestricted := [], focus := none }
      (Proof.mk { linear := [.NegAtom "A", .Atom "A"], unrestricted := [],
                  focus := none } .Axiom [])
      ⟨100, true, [], ⟨1, 0, 0⟩⟩ (by decide) rfl⟩

/-- C9 — the failure cache only grows: a `prove` call starts from
zeroed statistics but keeps every existing cache entry in its final
state; only `Prover::reset` empties the cache. -/
theorem prove_cache_monotone :
    (∀ (gas : Nat) (p : Prover) (seq : Sequent) (r : Option Proof) (st : Prover),
      Prover.prove gas p seq = some (r, st) → ∀ k, k ∈ p.cache → k ∈ st.cache) ∧
    (∀ p : Prover, (Prover.reset p).cache = []) ∧
    (∀ (gas : Nat) (p : Prover) (seq : Sequent),
      Prover.prove gas p seq = prove_with_depth gas { p with stats := ⟨0, 0, 0⟩ } seq 0) := by
  refine ⟨?_, fun p => rfl, fun gas p seq => rfl⟩
  intro gas p seq r st h k hk
  have hok := (search_okRes gas).1 { p with stats := ⟨0, 0, 0⟩ } seq 0
  simp only [Prover.prove] at h
  rw [h] at hok
  exact hok.2.2.1 k hk

/-- C9 (witness) — a prover whose cache holds the key `["x"]` still
holds it after proving `⊢ A` (which adds the key `["A"]`), and `reset`
empties the cache. -/
theorem prove_cache_monotone_witness :
    ["x"] ∈ (Prover.mk 5 true [["A"], ["x"]] ⟨1, 0, 0⟩).cache ∧
    (Prover.reset (Prover.mk 5 true [["x"]] ⟨0, 0, 0⟩)).cache = [] :=
  ⟨prove_cache_monotone.1 10 (Prover.mk 5 true [["x"]] ⟨0, 0, 0⟩)
      { linear := [.Atom "A"], unrestricted := [], focus := none } none
      (Prover.mk 5 true [["A"], ["x"]] ⟨1, 0, 0⟩) rfl ["x"] (by decide),
   prove_cache_monotone.2.1 (Prover.mk 5 true [["x"]] ⟨0, 0, 0⟩)⟩

/-- C5 (amended) — what the cache interaction does guarantee across two
invocations on a cache-enabled prover: when the first `prove` fails, the
input's key is cached, so any later `prove` of the same sequent fails as
well.  (A successful first result need not be reproduced — see the
counterexample.) -/
theorem cached_failure_repeats :
    ∀ (gas gas2 : Nat) (p : Prover) (seq : Sequent) (st : Prover),
      p.use_cache = true →
      Prover.prove gas p seq = some (none, st) →
      (Prover.prove (gas2 + 1) st seq).map (fun r => r.1) = some none := by
  intro gas gas2 p seq st huc h
  obtain ⟨hmem, huc'⟩ := key_cached_after_failure gas p seq st huc h
  exact prove_cache_hit gas2 st seq huc' hmem

/-- C5 (witness) — the repeat-failure law at the concrete unprovable
sequent `⊢ A` on a fresh prover of depth budget 3. -/
theorem cached_failure_repeats_witness :
    (Prover.prove (7 + 1) (Prover.mk 3 true [["A"]] ⟨1, 0, 0⟩)
        { linear := [.Atom "A"], unrestricted := [], focus := none }).map
      (fun r => r.1) = some none :=
  cached_failure_repeats 10 7 (Prover.new 3)
    { linear := [.Atom "A"], unrestricted := [], focus := none }
    (Prover.mk 3 true [["A"]] ⟨1, 0, 0⟩) rfl rfl

end Lolli
